import Mathlib

/-!
Shallow embedding of `src/contracts/ConfidentialFundraiser.sol`.

Modelling conventions:
* Addresses are `Nat`; `0` is `address(0)`.
* `euint128` ciphertexts are modelled by their plaintext value, a `Nat`
  strictly below `2 ^ 128`; the homomorphic operations `FHE.add` and
  `FHE.div` act on plaintexts, with addition wrapping modulo `2 ^ 128`
  (fhEVM encrypted arithmetic wraps on overflow) and division truncating.
* `FHE.fromExternal` ingests an externally encrypted 128-bit value after
  proof validation; proof validity is an explicit boolean parameter, and
  the resulting plaintext is reduced modulo `2 ^ 128`.
* Solidity mappings are total functions defaulting to `0` (the
  uninitialised `euint128` handle, read as encrypted zero).
* Each external function is a Lean function `State → args → Option Err × State`;
  returning `(some e, s)` models `revert e` (the EVM rolls back every state
  change, so the original state is returned unchanged), `(none, s')` models
  a successful call committing `s'`.
* `totalRaised += msg.value` uses Solidity 0.8 checked arithmetic, so an
  addition overflowing `2 ^ 256` reverts (modelled by `Err.overflowPanic`).
* The low-level value transfer in `endCampaign` may fail; its success is an
  explicit boolean parameter (the callee is outside the contract).
* `FHE.allowThis` / `FHE.allow` are modelled as an append-only capability
  list of (ledger slot, principal) pairs, following the grant targets of the
  source; emitted events are recorded in an append-only log.
-/

def TWO128 : Nat := 2 ^ 128

def U256 : Nat := 2 ^ 256

def POINTS_DIVISOR : Nat := 1000000000000

namespace FHE

/-- Homomorphic addition of two euint128 values: wraps modulo `2 ^ 128`. -/
def add (x y : Nat) : Nat := (x + y) % TWO128

/-- Homomorphic division of a euint128 by a public plaintext constant:
truncating integer division. -/
def div (x d : Nat) : Nat := x / d

/-- Ingestion of an externally encrypted 128-bit value (after proof
validation, which is modelled separately as a boolean): the plaintext is a
128-bit value. -/
def fromExternal (x : Nat) : Nat := x % TWO128

end FHE

/-- The `Campaign` struct of the contract. -/
structure Campaign where
  name : String
  targetAmount : Nat
  endTimestamp : Nat
  fundraiser : Nat
  isActive : Bool
deriving Repr, DecidableEq

/-- A principal that can hold a decryption capability: the contract itself
(`FHE.allowThis`) or an external account (`FHE.allow`). -/
inductive Principal where
  | contract : Principal
  | acct : Nat → Principal
deriving Repr, DecidableEq

/-- The four kinds of encrypted ledger slots whose values receive grants. -/
inductive Slot where
  | contribOf : Nat → Slot
  | pointsOf : Nat → Slot
  | totalRaisedSlot : Slot
  | totalPointsSlot : Slot
deriving Repr, DecidableEq

/-- Events emitted by the contract. -/
inductive Ev where
  | CampaignCreated : String → Nat → Nat → Nat → Ev
  | ContributionReceived : Nat → Nat → Ev
  | CampaignEnded : Nat → Nat → Nat → Ev
deriving Repr, DecidableEq

/-- Revert reasons: the contract's custom errors, plus the EVM-level
reverts of a failed ciphertext-proof validation inside `FHE.fromExternal`
and of a Solidity 0.8 checked-arithmetic overflow panic. -/
inductive Err where
  | CampaignAlreadyCreated : Err
  | CampaignInactive : Err
  | CampaignAlreadyEnded : Err
  | InvalidCampaignConfig : Err
  | Unauthorized : Err
  | ZeroContribution : Err
  | WithdrawalFailed : Err
  | InvalidProof : Err
  | overflowPanic : Err
deriving Repr, DecidableEq

/-- The full contract state: campaign record, plaintext settlement total,
encrypted accumulators and per-contributor maps, the ether balance held by
the contract, the capability (allow-list) table and the event log. -/
structure State where
  campaign : Campaign
  totalRaised : Nat
  encryptedTotalRaised : Nat
  encryptedTotalPoints : Nat
  encryptedContributions : Nat → Nat
  encryptedPoints : Nat → Nat
  balance : Nat
  acl : List (Slot × Principal)
  events : List Ev

/-- State of a fresh deployment: empty campaign, zero totals, zero-handle
(encrypted-zero) mappings, no balance, no grants, no events. -/
def initState : State :=
  { campaign := ⟨"", 0, 0, 0, false⟩
    totalRaised := 0
    encryptedTotalRaised := 0
    encryptedTotalPoints := 0
    encryptedContributions := fun _ => 0
    encryptedPoints := fun _ => 0
    balance := 0
    acl := []
    events := [] }

/-- Operation `createCampaign(name, targetAmount, endTimestamp)`; `caller`
is `msg.sender` and `now` is `block.timestamp`. -/
def createCampaign (s : State) (caller : Nat) (name : String)
    (targetAmount endTimestamp now : Nat) : Option Err × State :=
  if s.campaign.fundraiser ≠ 0 then
    (some Err.CampaignAlreadyCreated, s)
  else if name = "" ∨ targetAmount = 0 ∨ endTimestamp ≤ now then
    (some Err.InvalidCampaignConfig, s)
  else
    (none,
      { s with
        campaign := ⟨name, targetAmount, endTimestamp, caller, true⟩
        events := s.events ++ [Ev.CampaignCreated name targetAmount endTimestamp caller] })

/-- The capability grants issued by one accepted `contribute` call from
`caller` in a state whose fundraiser is `fundraiser`: `FHE.allowThis` and
`FHE.allow(·, msg.sender)` on the caller's two updated per-contributor
values, then `FHE.allowThis` on the two totals, and, when the fundraiser is
not the null address, `FHE.allow` on the two totals to the fundraiser. -/
def contributeGrants (caller fundraiser : Nat) : List (Slot × Principal) :=
  [ (Slot.contribOf caller, Principal.contract),
    (Slot.contribOf caller, Principal.acct caller),
    (Slot.pointsOf caller, Principal.contract),
    (Slot.pointsOf caller, Principal.acct caller),
    (Slot.totalRaisedSlot, Principal.contract),
    (Slot.totalPointsSlot, Principal.contract) ]
  ++ (if fundraiser ≠ 0 then
        [ (Slot.totalRaisedSlot, Principal.acct fundraiser),
          (Slot.totalPointsSlot, Principal.acct fundraiser) ]
      else [])

/-- Operation `contribute(encryptedAmount, inputProof)`; `caller` is `msg.sender`,
`value` is `msg.value`, `encAmt` the plaintext of the external ciphertext,
`now` is `block.timestamp`, and `proofOk` whether the input proof validates
in `FHE.fromExternal`. -/
def contribute (s : State) (caller value encAmt now : Nat)
    (proofOk : Bool) : Option Err × State :=
  if ¬ s.campaign.isActive then
    (some Err.CampaignInactive, s)
  else if s.campaign.endTimestamp ≤ now then
    (some Err.CampaignAlreadyEnded, s)
  else if value = 0 then
    (some Err.ZeroContribution, s)
  else if ¬ proofOk then
    (some Err.InvalidProof, s)
  else if U256 ≤ s.totalRaised + value then
    (some Err.overflowPanic, s)
  else
    let amount := FHE.fromExternal encAmt
    let updatedContribution := FHE.add (s.encryptedContributions caller) amount
    let contributionPoints := FHE.div amount POINTS_DIVISOR
    let updatedPoints := FHE.add (s.encryptedPoints caller) contributionPoints
    (none,
      { s with
        encryptedContributions :=
          fun a => if a = caller then updatedContribution else s.encryptedContributions a
        encryptedPoints :=
          fun a => if a = caller then updatedPoints else s.encryptedPoints a
        encryptedTotalRaised := FHE.add s.encryptedTotalRaised amount
        encryptedTotalPoints := FHE.add s.encryptedTotalPoints contributionPoints
        totalRaised := s.totalRaised + value
        balance := s.balance + value
        acl := s.acl ++ contributeGrants caller s.campaign.fundraiser
        events := s.events ++ [Ev.ContributionReceived caller value] })

/-- Operation `endCampaign()`; `caller` is `msg.sender`, `transferOk` whether the
low-level value transfer to the fundraiser succeeds, `now` is
`block.timestamp`. A failed transfer reverts the whole call, rolling back
the `isActive` flip. -/
def endCampaign (s : State) (caller : Nat) (transferOk : Bool)
    (now : Nat) : Option Err × State :=
  if caller ≠ s.campaign.fundraiser then
    (some Err.Unauthorized, s)
  else if ¬ s.campaign.isActive then
    (some Err.CampaignInactive, s)
  else if ¬ transferOk then
    (some Err.WithdrawalFailed, s)
  else
    (none,
      { s with
        campaign := { s.campaign with isActive := false }
        balance := 0
        events := s.events ++ [Ev.CampaignEnded s.campaign.fundraiser s.balance now] })

/-- One external call with all its environment parameters. -/
inductive Op where
  | create : Nat → String → Nat → Nat → Nat → Op
  | contrib : Nat → Nat → Nat → Nat → Bool → Op
  | finish : Nat → Bool → Nat → Op

/-- Committed state after one call (a reverted call leaves the state as it
was, which is exactly what the operations return on error). -/
def step (s : State) (op : Op) : State :=
  match op with
  | Op.create c n t e now => (createCampaign s c n t e now).2
  | Op.contrib c v a now p => (contribute s c v a now p).2
  | Op.finish c ok now => (endCampaign s c ok now).2

/-- Committed state after a sequence of calls. -/
def exec (s : State) (ops : List Op) : State := ops.foldl step s

/-- A state is reachable when some call sequence from a fresh deployment
produces it. -/
def Reachable (s : State) : Prop := ∃ ops, s = exec initState ops

/-- Arguments of one `contribute` call. -/
structure CArgs where
  caller : Nat
  value : Nat
  encAmt : Nat
  now : Nat
  proofOk : Bool

/-- Run a sequence of `contribute` calls, stopping at the first revert. -/
def runContribs (s : State) : List CArgs → Option Err × State
  | [] => (none, s)
  | c :: cs =>
    match contribute s c.caller c.value c.encAmt c.now c.proofOk with
    | (some e, s') => (some e, s')
    | (none, s') => runContribs s' cs

/-- The encrypted-ledger invariant: some duplicate-free list of
contributors carries all non-zero entries, and each encrypted total is the
wrap-around (mod `2 ^ 128`) sum of the corresponding per-contributor
entries. -/
def LedgerInv (s : State) : Prop :=
  ∃ L : List Nat, L.Nodup ∧
    (∀ a : Nat, a ∉ L → s.encryptedContributions a = 0 ∧ s.encryptedPoints a = 0) ∧
    s.encryptedTotalRaised = (L.map s.encryptedContributions).sum % TWO128 ∧
    s.encryptedTotalPoints = (L.map s.encryptedPoints).sum % TWO128

/-- The access-control invariant: no principal other than the contract
holds a grant over another principal's per-contributor entry. -/
def AclOk (s : State) : Prop :=
  ∀ (x : Nat) (q : Principal),
    ((Slot.contribOf x, q) ∈ s.acl →
      q = Principal.contract ∨ q = Principal.acct x) ∧
    ((Slot.pointsOf x, q) ∈ s.acl →
      q = Principal.contract ∨ q = Principal.acct x)


/-- Success characterization of `contribute`: an accepted call implies the
engine preconditions held and yields exactly the committed state. -/
theorem contribute_ok_elim (s : State) {caller value encAmt now : Nat}
    {proofOk : Bool} {s' : State}
    (h : contribute s caller value encAmt now proofOk = (none, s')) :
    s.campaign.isActive = true ∧ now < s.campaign.endTimestamp ∧ 0 < value ∧
      proofOk = true ∧ s.totalRaised + value < U256 ∧
      s' = { s with
        encryptedContributions :=
          fun a => if a = caller
            then FHE.add (s.encryptedContributions caller) (FHE.fromExternal encAmt)
            else s.encryptedContributions a
        encryptedPoints :=
          fun a => if a = caller
            then FHE.add (s.encryptedPoints caller)
                   (FHE.div (FHE.fromExternal encAmt) POINTS_DIVISOR)
            else s.encryptedPoints a
        encryptedTotalRaised := FHE.add s.encryptedTotalRaised (FHE.fromExternal encAmt)
        encryptedTotalPoints := FHE.add s.encryptedTotalPoints
          (FHE.div (FHE.fromExternal encAmt) POINTS_DIVISOR)
        totalRaised := s.totalRaised + value
        balance := s.balance + value
        acl := s.acl ++ contributeGrants caller s.campaign.fundraiser
        events := s.events ++ [Ev.ContributionReceived caller value] } := by
  unfold contribute at h
  split_ifs at h with h1 h2 h3 h4 h5 <;> simp_all
  omega

/-- A `contribute` against an inactive campaign reverts with
`CampaignInactive` before any other check. -/
theorem contribute_inactive (s : State) (caller value encAmt now : Nat)
    (proofOk : Bool) (h : s.campaign.isActive = false) :
    contribute s caller value encAmt now proofOk =
      (some Err.CampaignInactive, s) := by
  unfold contribute
  split_ifs <;> simp_all

/-- C6: `contribute` fails with `CampaignInactive` when the campaign is not
active, with `CampaignAlreadyEnded` when the processing time is not strictly
before `endTimestamp`, and with `ZeroContribution` when the attached public
value is zero; a ciphertext-proof ingestion failure also reverts; in every
failure case the state is returned unchanged (no ledger, settlement or
permission mutation). -/
theorem contribute_error_cases (s : State) (caller value encAmt now : Nat)
    (proofOk : Bool) :
    (s.campaign.isActive = false →
      contribute s caller value encAmt now proofOk = (some Err.CampaignInactive, s)) ∧
    (s.campaign.isActive = true → s.campaign.endTimestamp ≤ now →
      contribute s caller value encAmt now proofOk = (some Err.CampaignAlreadyEnded, s)) ∧
    (s.campaign.isActive = true → now < s.campaign.endTimestamp → value = 0 →
      contribute s caller value encAmt now proofOk = (some Err.ZeroContribution, s)) ∧
    (s.campaign.isActive = true → now < s.campaign.endTimestamp → 0 < value →
      proofOk = false →
      contribute s caller value encAmt now proofOk = (some Err.InvalidProof, s)) := by
  refine ⟨?_, ?_, ?_, ?_⟩ <;> intros <;> (unfold contribute) <;>
    split_ifs <;> simp_all <;> omega

/-- C9: in the uninitialised state, `createCampaign` rejects with
`InvalidCampaignConfig` exactly when the name is empty, the target is zero,
or the end timestamp is not strictly in the future; otherwise it records the
campaign with `fundraiser = caller` and `isActive = true` in one atomic
step. -/
theorem createCampaign_spec (s : State) (caller : Nat) (name : String)
    (targetAmount endTimestamp now : Nat)
    (h0 : s.campaign.fundraiser = 0) :
    (createCampaign s caller name targetAmount endTimestamp now =
        (some Err.InvalidCampaignConfig, s) ↔
      (name = "" ∨ targetAmount = 0 ∨ endTimestamp ≤ now)) ∧
    (¬ (name = "" ∨ targetAmount = 0 ∨ endTimestamp ≤ now) →
      createCampaign s caller name targetAmount endTimestamp now =
        (none,
          { s with
            campaign := ⟨name, targetAmount, endTimestamp, caller, true⟩
            events := s.events ++
              [Ev.CampaignCreated name targetAmount endTimestamp caller] })) := by
  constructor
  · unfold createCampaign
    split_ifs <;> simp_all
  · intro h
    unfold createCampaign
    split_ifs <;> simp_all

/-- C9 witness. -/
theorem createCampaign_spec_witness :
    initState.campaign.fundraiser = 0 ∧
    (createCampaign initState 7 "Rocket" 5 1000 10 =
      (none,
        { initState with
          campaign := ⟨"Rocket", 5, 1000, 7, true⟩
          events := [Ev.CampaignCreated "Rocket" 5 1000 7] })) :=
  ⟨rfl, by
    have h := (createCampaign_spec initState 7 "Rocket" 5 1000 10 rfl).2
      (by simp)
    simpa [initState] using h⟩

/-- C6 witness: in the fresh (inactive) state a `contribute` reverts with
`CampaignInactive` and changes nothing. -/
theorem contribute_error_cases_witness :
    initState.campaign.isActive = false ∧
    contribute initState 3 1 2 20 true = (some Err.CampaignInactive, initState) :=
  ⟨rfl, (contribute_error_cases initState 3 1 2 20 true).1 rfl⟩

/-- If the campaign is inactive the contract holds no funds; preserved by
every single call. -/
theorem step_balance_inactive (s : State) (op : Op)
    (h : s.campaign.isActive = false → s.balance = 0) :
    (step s op).campaign.isActive = false → (step s op).balance = 0 := by
  cases op <;> simp only [step, createCampaign, contribute, endCampaign] <;>
    split_ifs <;> simp_all

/-- If the campaign is inactive the contract holds no funds; preserved by
every call sequence. -/
theorem exec_balance_inactive (ops : List Op) :
    ∀ s : State, (s.campaign.isActive = false → s.balance = 0) →
      ((exec s ops).campaign.isActive = false → (exec s ops).balance = 0) := by
  induction ops with
  | nil => intro s h; simpa [exec] using h
  | cons op ops ih =>
    intro s h
    simpa [exec, List.foldl] using ih (step s op) (step_balance_inactive s op h)

/-- In every reachable state, an inactive campaign holds no funds. -/
theorem reachable_balance_inactive (s : State) (h : Reachable s)
    (hin : s.campaign.isActive = false) : s.balance = 0 := by
  obtain ⟨ops, rfl⟩ := h
  exact exec_balance_inactive ops initState (fun _ => rfl) hin

/-- C5: `endCampaign` rejects a non-fundraiser caller with `Unauthorized`
and an inactive campaign with `CampaignInactive`; on success it flips
`isActive` to false and transfers the entire held balance to the fundraiser
(recorded in the `CampaignEnded` event), leaving the contract with zero
balance; a failed transfer reverts both the flip and the transfer, so the
state is returned unchanged; and in no reachable state is the campaign
inactive while funds remain. -/
theorem endCampaign_spec (s : State) (caller : Nat) (transferOk : Bool)
    (now : Nat) :
    (caller ≠ s.campaign.fundraiser →
      endCampaign s caller transferOk now = (some Err.Unauthorized, s)) ∧
    (caller = s.campaign.fundraiser → s.campaign.isActive = false →
      endCampaign s caller transferOk now = (some Err.CampaignInactive, s)) ∧
    (caller = s.campaign.fundraiser → s.campaign.isActive = true →
      transferOk = false →
      endCampaign s caller transferOk now = (some Err.WithdrawalFailed, s)) ∧
    (caller = s.campaign.fundraiser → s.campaign.isActive = true →
      transferOk = true →
      endCampaign s caller transferOk now =
        (none,
          { s with
            campaign := { s.campaign with isActive := false }
            balance := 0
            events := s.events ++
              [Ev.CampaignEnded s.campaign.fundraiser s.balance now] })) ∧
    (∀ s' : State, Reachable s' → s'.campaign.isActive = false →
      s'.balance = 0) := by
  refine ⟨?_, ?_, ?_, ?_, fun s' h hin => reachable_balance_inactive s' h hin⟩ <;>
    intros <;> (unfold endCampaign) <;> split_ifs <;> simp_all

/-- C5 witness: in a concrete active state with a positive balance, the
fundraiser's `endCampaign` succeeds, sweeps the balance and deactivates. -/
theorem endCampaign_spec_witness :
    (7 : Nat) = ({ initState with
        campaign := ⟨"Rocket", 5, 1000, 7, true⟩
        balance := 42 } : State).campaign.fundraiser ∧
    endCampaign { initState with
        campaign := ⟨"Rocket", 5, 1000, 7, true⟩
        balance := 42 } 7 true 99 =
      (none,
        { initState with
          campaign := ⟨"Rocket", 5, 1000, 7, false⟩
          balance := 0
          events := [Ev.CampaignEnded 7 42 99] }) :=
  ⟨rfl, by
    have h := (endCampaign_spec { initState with
        campaign := ⟨"Rocket", 5, 1000, 7, true⟩
        balance := 42 } 7 true 99).2.2.2.1 rfl rfl rfl
    simpa [initState] using h⟩

/-- Once the fundraiser is a non-null identity, no single call changes it. -/
theorem step_fundraiser_stable (s : State) (op : Op)
    (h : s.campaign.fundraiser ≠ 0) :
    (step s op).campaign.fundraiser = s.campaign.fundraiser := by
  cases op <;> simp only [step, createCampaign, contribute, endCampaign] <;>
    split_ifs <;> simp_all

/-- Once the fundraiser is a non-null identity, no call sequence changes
it. -/
theorem exec_fundraiser_stable (ops : List Op) :
    ∀ s : State, s.campaign.fundraiser ≠ 0 →
      (exec s ops).campaign.fundraiser = s.campaign.fundraiser := by
  induction ops with
  | nil => intro s _; rfl
  | cons op ops ih =>
    intro s h
    have h1 := step_fundraiser_stable s op h
    calc (exec (step s op) ops).campaign.fundraiser
        = (step s op).campaign.fundraiser := ih (step s op) (by rw [h1]; exact h)
      _ = s.campaign.fundraiser := h1

/-- Success characterization of `createCampaign`. -/
theorem createCampaign_ok_elim (s : State) {caller : Nat} {name : String}
    {targetAmount endTimestamp now : Nat} {s' : State}
    (h : createCampaign s caller name targetAmount endTimestamp now =
      (none, s')) :
    s.campaign.fundraiser = 0 ∧ name ≠ "" ∧ targetAmount ≠ 0 ∧
      now < endTimestamp ∧
      s' = { s with
        campaign := ⟨name, targetAmount, endTimestamp, caller, true⟩
        events := s.events ++
          [Ev.CampaignCreated name targetAmount endTimestamp caller] } := by
  unfold createCampaign at h
  split_ifs at h with h1 h2 <;> simp_all

/-- C4: after one successful `createCampaign` by a non-null caller, every
later `createCampaign` — whatever calls come in between — fails with
`CampaignAlreadyCreated` and returns the state unchanged, so every Campaign
field is left as it was. -/
theorem createCampaign_single_creation (s0 s : State) (c : Nat)
    (n : String) (t e now : Nat) (hc : c ≠ 0)
    (h : createCampaign s0 c n t e now = (none, s)) (ops : List Op)
    (c2 : Nat) (n2 : String) (t2 e2 now2 : Nat) :
    createCampaign (exec s ops) c2 n2 t2 e2 now2 =
      (some Err.CampaignAlreadyCreated, exec s ops) := by
  have hs : s.campaign.fundraiser = c := by
    obtain ⟨-, -, -, -, rfl⟩ := createCampaign_ok_elim s0 h
    rfl
  have hf : (exec s ops).campaign.fundraiser ≠ 0 := by
    rw [exec_fundraiser_stable ops s (by rw [hs]; exact hc), hs]
    exact hc
  unfold createCampaign
  split_ifs
  simp_all

/-- C4 witness: create, then contribute and end, then a second create
fails with `CampaignAlreadyCreated` and leaves the state untouched. -/
theorem createCampaign_single_creation_witness :
    (7 : Nat) ≠ 0 ∧
    createCampaign initState 7 "Rocket" 5 1000 10 =
      (none, exec initState [Op.create 7 "Rocket" 5 1000 10]) ∧
    createCampaign
        (exec (exec initState [Op.create 7 "Rocket" 5 1000 10])
          [Op.contrib 3 1 2 20 true, Op.finish 7 true 30])
        8 "Again" 9 2000 15 =
      (some Err.CampaignAlreadyCreated,
        exec (exec initState [Op.create 7 "Rocket" 5 1000 10])
          [Op.contrib 3 1 2 20 true, Op.finish 7 true 30]) := by
  refine ⟨by decide, by rfl, ?_⟩
  exact createCampaign_single_creation initState
    (exec initState [Op.create 7 "Rocket" 5 1000 10]) 7 "Rocket" 5 1000 10
    (by decide) (by rfl) [Op.contrib 3 1 2 20 true, Op.finish 7 true 30]
    8 "Again" 9 2000 15

/-- Once the campaign is ended (inactive with a non-null fundraiser), no
single call reactivates it or changes the fundraiser. -/
theorem step_ended_stable (s : State) (op : Op)
    (h1 : s.campaign.fundraiser ≠ 0) (h2 : s.campaign.isActive = false) :
    (step s op).campaign.fundraiser ≠ 0 ∧
      (step s op).campaign.isActive = false := by
  cases op <;> simp only [step, createCampaign, contribute, endCampaign] <;>
    split_ifs <;> simp_all

/-- Once the campaign is ended, no call sequence reactivates it. -/
theorem exec_ended_stable (ops : List Op) :
    ∀ s : State, s.campaign.fundraiser ≠ 0 → s.campaign.isActive = false →
      (exec s ops).campaign.fundraiser ≠ 0 ∧
        (exec s ops).campaign.isActive = false := by
  induction ops with
  | nil => intro s h1 h2; exact ⟨h1, h2⟩
  | cons op ops ih =>
    intro s h1 h2
    obtain ⟨g1, g2⟩ := step_ended_stable s op h1 h2
    exact ih (step s op) g1 g2

/-- Success characterization of `endCampaign`. -/
theorem endCampaign_ok_elim (s : State) {caller : Nat} {transferOk : Bool}
    {now : Nat} {s' : State}
    (h : endCampaign s caller transferOk now = (none, s')) :
    caller = s.campaign.fundraiser ∧ s.campaign.isActive = true ∧
      transferOk = true ∧
      s' = { s with
        campaign := { s.campaign with isActive := false }
        balance := 0
        events := s.events ++
          [Ev.CampaignEnded s.campaign.fundraiser s.balance now] } := by
  unfold endCampaign at h
  split_ifs at h with h1 h2 h3 <;> simp_all

/-- C10: in any state reached after a successful `endCampaign` (by a
non-null caller), `contribute` fails with `CampaignInactive` — never with
`CampaignAlreadyEnded` — whatever the processing time, because the
`isActive` check runs before the deadline check. -/
theorem contribute_after_end_inactive (s s1 : State) (caller : Nat)
    (transferOk : Bool) (now : Nat) (hc : caller ≠ 0)
    (h : endCampaign s caller transferOk now = (none, s1)) (ops : List Op)
    (c v a now2 : Nat) (p : Bool) :
    contribute (exec s1 ops) c v a now2 p =
      (some Err.CampaignInactive, exec s1 ops) := by
  obtain ⟨hcal, hact, -, hs1⟩ := endCampaign_ok_elim s h
  obtain ⟨g1, g2⟩ := exec_ended_stable ops s1
    (by rw [hs1]; show s.campaign.fundraiser ≠ 0; rw [← hcal]; exact hc)
    (by rw [hs1])
  exact contribute_inactive _ c v a now2 p g2

/-- C10 witness: end the campaign, then contribute after the deadline has
long passed — still `CampaignInactive`, not `CampaignAlreadyEnded`. -/
theorem contribute_after_end_inactive_witness :
    (7 : Nat) ≠ 0 ∧
    endCampaign (exec initState [Op.create 7 "Rocket" 5 1000 10]) 7 true 30 =
      (none, exec initState [Op.create 7 "Rocket" 5 1000 10, Op.finish 7 true 30]) ∧
    contribute
        (exec (exec initState [Op.create 7 "Rocket" 5 1000 10, Op.finish 7 true 30]) [])
        3 1 2 5000 true =
      (some Err.CampaignInactive,
        exec (exec initState [Op.create 7 "Rocket" 5 1000 10, Op.finish 7 true 30]) []) := by
  refine ⟨by decide, by rfl, ?_⟩
  exact contribute_after_end_inactive
    (exec initState [Op.create 7 "Rocket" 5 1000 10])
    (exec initState [Op.create 7 "Rocket" 5 1000 10, Op.finish 7 true 30])
    7 true 30 (by decide) (by rfl) [] 3 1 2 5000 true

/-- An accepted sequence of `contribute` calls raises `totalRaised` by
exactly the sum of the attached public values. -/
theorem runContribs_totalRaised (cs : List CArgs) :
    ∀ s s' : State, runContribs s cs = (none, s') →
      s'.totalRaised = s.totalRaised + (cs.map CArgs.value).sum := by
  induction cs with
  | nil =>
    intro s s' h
    simp only [runContribs] at h
    injection h with _ h2
    simp [← h2]
  | cons c cs ih =>
    intro s s' h
    simp only [runContribs] at h
    rcases hc : contribute s c.caller c.value c.encAmt c.now c.proofOk with ⟨e, t⟩
    rw [hc] at h
    cases e with
    | some e => simp at h
    | none =>
      obtain ⟨-, -, -, -, -, rfl⟩ := contribute_ok_elim s hc
      have := ih _ _ h
      simp only [List.map_cons, List.sum_cons] at *
      omega

/-- C1: for every sequence of accepted `contribute` calls with public
values v1..vn, `totalRaised` grows by exactly v1 + ... + vn with no loss of
precision, and neither `createCampaign` nor `endCampaign` (the terminal
sweep included) ever changes `totalRaised`. -/
theorem totalRaised_conservation (s s' : State) (cs : List CArgs)
    (h : runContribs s cs = (none, s')) :
    s'.totalRaised = s.totalRaised + (cs.map CArgs.value).sum ∧
    (∀ (c : Nat) (n : String) (t e now : Nat),
      ((createCampaign s c n t e now).2).totalRaised = s.totalRaised) ∧
    (∀ (c : Nat) (ok : Bool) (now : Nat),
      ((endCampaign s c ok now).2).totalRaised = s.totalRaised) := by
  refine ⟨runContribs_totalRaised cs s s' h, ?_, ?_⟩ <;>
    intros <;> simp only [createCampaign, endCampaign] <;> split_ifs <;> rfl

/-- C1 witness: two accepted contributions of 5 and 9 raise `totalRaised`
from 0 to 14 exactly. -/
theorem totalRaised_conservation_witness :
    runContribs (exec initState [Op.create 7 "Rocket" 5 1000 10])
        [⟨3, 5, 5, 20, true⟩, ⟨4, 9, 9, 21, true⟩] =
      (none, exec initState [Op.create 7 "Rocket" 5 1000 10,
        Op.contrib 3 5 5 20 true, Op.contrib 4 9 9 21 true]) ∧
    (exec initState [Op.create 7 "Rocket" 5 1000 10,
        Op.contrib 3 5 5 20 true, Op.contrib 4 9 9 21 true]).totalRaised =
      (exec initState [Op.create 7 "Rocket" 5 1000 10]).totalRaised +
        (([⟨3, 5, 5, 20, true⟩, ⟨4, 9, 9, 21, true⟩] : List CArgs).map
          CArgs.value).sum := by
  refine ⟨by rfl, ?_⟩
  exact (totalRaised_conservation _ _ _ (by rfl)).1

/-- Per-call points delta: an accepted contribution of encrypted amount
`encAmt` adds exactly `encAmt / POINTS_DIVISOR` to the caller's encrypted
points and to the encrypted points total (stated below the 128-bit wrap
bound). -/
theorem contribute_points_delta (s : State) (caller value encAmt now : Nat)
    (proofOk : Bool) (s' : State)
    (h : contribute s caller value encAmt now proofOk = (none, s'))
    (ha : encAmt < TWO128)
    (hb : s.encryptedPoints caller + encAmt / POINTS_DIVISOR < TWO128)
    (hc : s.encryptedTotalPoints + encAmt / POINTS_DIVISOR < TWO128) :
    s'.encryptedPoints caller =
      s.encryptedPoints caller + encAmt / POINTS_DIVISOR ∧
    s'.encryptedTotalPoints =
      s.encryptedTotalPoints + encAmt / POINTS_DIVISOR ∧
    s'.encryptedContributions caller =
      (s.encryptedContributions caller + encAmt) % TWO128 := by
  obtain ⟨-, -, -, -, -, rfl⟩ := contribute_ok_elim s h
  refine ⟨?_, ?_, ?_⟩ <;>
    simp [FHE.add, FHE.div, FHE.fromExternal, Nat.mod_eq_of_lt ha,
      Nat.mod_eq_of_lt hb, Nat.mod_eq_of_lt hc]

/-- C2: each accepted contribution of encrypted amount `a` adds exactly
`floor(a / 1_000_000_000_000)` points to the caller's entry and to the
points total; two contributions `a1, a2` from the same contributor
accumulate `floor(a1/D) + floor(a2/D)` points — per-call truncation, never
recomputed from the sum — and there are amounts for which this is strictly
less than `floor((a1+a2)/D)`. -/
theorem points_truncation_law (s : State) (caller : Nat) :
    (∀ (value encAmt now : Nat) (proofOk : Bool) (s' : State),
      contribute s caller value encAmt now proofOk = (none, s') →
      encAmt < TWO128 →
      s.encryptedPoints caller + encAmt / POINTS_DIVISOR < TWO128 →
      s.encryptedTotalPoints + encAmt / POINTS_DIVISOR < TWO128 →
      s'.encryptedPoints caller =
        s.encryptedPoints caller + encAmt / POINTS_DIVISOR ∧
      s'.encryptedTotalPoints =
        s.encryptedTotalPoints + encAmt / POINTS_DIVISOR) ∧
    (∀ (v1 a1 n1 : Nat) (p1 : Bool) (v2 a2 n2 : Nat) (p2 : Bool)
        (s1 s2 : State),
      contribute s caller v1 a1 n1 p1 = (none, s1) →
      contribute s1 caller v2 a2 n2 p2 = (none, s2) →
      a1 < TWO128 → a2 < TWO128 →
      s.encryptedPoints caller + a1 / POINTS_DIVISOR + a2 / POINTS_DIVISOR
          < TWO128 →
      s.encryptedTotalPoints + a1 / POINTS_DIVISOR + a2 / POINTS_DIVISOR
          < TWO128 →
      s2.encryptedPoints caller =
        s.encryptedPoints caller + a1 / POINTS_DIVISOR + a2 / POINTS_DIVISOR) ∧
    (∃ a1 a2 : Nat, a1 < TWO128 ∧ a2 < TWO128 ∧
      a1 / POINTS_DIVISOR + a2 / POINTS_DIVISOR <
        (a1 + a2) / POINTS_DIVISOR) := by
  refine ⟨?_, ?_, ⟨600000000000, 600000000000, by decide, by decide, by decide⟩⟩
  · intro value encAmt now proofOk s' h ha hb hc
    obtain ⟨g1, g2, -⟩ :=
      contribute_points_delta s caller value encAmt now proofOk s' h ha hb hc
    exact ⟨g1, g2⟩
  · intro v1 a1 n1 p1 v2 a2 n2 p2 s1 s2 h1 h2 ha1 ha2 hb hc
    simp only [POINTS_DIVISOR, TWO128] at *
    obtain ⟨g1, g2, -⟩ :=
      contribute_points_delta s caller v1 a1 n1 p1 s1 h1 ha1
        (by simp only [POINTS_DIVISOR, TWO128]; omega)
        (by simp only [POINTS_DIVISOR, TWO128]; omega)
    simp only [POINTS_DIVISOR, TWO128] at g1 g2
    obtain ⟨g3, -, -⟩ :=
      contribute_points_delta s1 caller v2 a2 n2 p2 s2 h2 ha2
        (by simp only [POINTS_DIVISOR, TWO128]; omega)
        (by simp only [POINTS_DIVISOR, TWO128]; omega)
    simp only [POINTS_DIVISOR, TWO128] at g3
    omega

/-- C2 witness: contributing encrypted amount 10^12 + 5 yields exactly one
point (the remainder 5 is truncated). -/
theorem points_truncation_law_witness :
    contribute (exec initState [Op.create 7 "Rocket" 5 1000 10])
        3 1 1000000000005 20 true =
      (none, exec initState [Op.create 7 "Rocket" 5 1000 10,
        Op.contrib 3 1 1000000000005 20 true]) ∧
    (exec initState [Op.create 7 "Rocket" 5 1000 10,
        Op.contrib 3 1 1000000000005 20 true]).encryptedPoints 3 =
      (exec initState [Op.create 7 "Rocket" 5 1000 10]).encryptedPoints 3 +
        1000000000005 / POINTS_DIVISOR := by
  refine ⟨by rfl, ?_⟩
  exact ((points_truncation_law
      (exec initState [Op.create 7 "Rocket" 5 1000 10]) 3).1
    1 1000000000005 20 true _ (by rfl) (by decide) (by decide) (by decide)).1

/-- C3 counterexample: nothing ties the attached public value to the
plaintext of the encrypted amount — a contribution with `msg.value = 1`
and encrypted amount `2` is accepted, after which `totalRaised = 1` while
the encrypted total's plaintext is `2`: the two bookkeeping systems
diverge in a reachable state. -/
theorem public_encrypted_divergence :
    (contribute (exec initState [Op.create 7 "Rocket" 5 1000 10])
        3 1 2 20 true).1 = none ∧
    (exec initState [Op.create 7 "Rocket" 5 1000 10,
        Op.contrib 3 1 2 20 true]).totalRaised = 1 ∧
    (exec initState [Op.create 7 "Rocket" 5 1000 10,
        Op.contrib 3 1 2 20 true]).encryptedTotalRaised = 2 := by
  refine ⟨by rfl, by rfl, by rfl⟩

/-- Inductive step for the conditional public/encrypted consistency. -/
theorem runContribs_consistency (cs : List CArgs) :
    ∀ s s' : State, runContribs s cs = (none, s') →
      (∀ c ∈ cs, c.encAmt = c.value ∧ c.value < TWO128) →
      s.encryptedTotalRaised = s.totalRaised % TWO128 →
      s'.encryptedTotalRaised = s'.totalRaised % TWO128 := by
  induction cs with
  | nil =>
    intro s s' h hv hs
    simp only [runContribs] at h
    injection h with _ h2
    rw [← h2]; exact hs
  | cons c cs ih =>
    intro s s' h hv hs
    simp only [runContribs] at h
    rcases hc : contribute s c.caller c.value c.encAmt c.now c.proofOk with ⟨e, t⟩
    rw [hc] at h
    cases e with
    | some e => simp at h
    | none =>
      obtain ⟨hca, hcv⟩ := hv c (List.mem_cons_self c cs)
      obtain ⟨-, -, -, -, -, rfl⟩ := contribute_ok_elim s hc
      refine ih _ _ h (fun d hd => hv d (List.mem_cons_of_mem c hd)) ?_
      simp only [FHE.add, FHE.fromExternal, hca, Nat.mod_eq_of_lt hcv, hs]
      rw [Nat.mod_add_mod]

/-- C3 (amended): provided every accepted contribution's encrypted amount
equals its attached public value (a discipline the contract cannot check),
the plaintext of `encryptedTotalRaised` equals `totalRaised` modulo
`2 ^ 128` after any accepted sequence of contributions — exactly while
`totalRaised` stays below `2 ^ 128`. -/
theorem public_encrypted_consistency (cs : List CArgs) (s s' : State)
    (h : runContribs s cs = (none, s'))
    (hv : ∀ c ∈ cs, c.encAmt = c.value ∧ c.value < TWO128)
    (hs : s.encryptedTotalRaised = s.totalRaised % TWO128) :
    s'.encryptedTotalRaised = s'.totalRaised % TWO128 ∧
    (s'.totalRaised < TWO128 → s'.encryptedTotalRaised = s'.totalRaised) := by
  have g := runContribs_consistency cs s s' h hv hs
  exact ⟨g, fun hlt => by rw [g]; exact Nat.mod_eq_of_lt hlt⟩

/-- C3 witness: honest contributions of 5 and 9 keep the plaintext and
encrypted totals in agreement (both 14). -/
theorem public_encrypted_consistency_witness :
    runContribs (exec initState [Op.create 7 "Rocket" 5 1000 10])
        [⟨3, 5, 5, 20, true⟩, ⟨4, 9, 9, 21, true⟩] =
      (none, exec initState [Op.create 7 "Rocket" 5 1000 10,
        Op.contrib 3 5 5 20 true, Op.contrib 4 9 9 21 true]) ∧
    (exec initState [Op.create 7 "Rocket" 5 1000 10,
        Op.contrib 3 5 5 20 true, Op.contrib 4 9 9 21 true]).encryptedTotalRaised =
      (exec initState [Op.create 7 "Rocket" 5 1000 10,
        Op.contrib 3 5 5 20 true, Op.contrib 4 9 9 21 true]).totalRaised % TWO128 := by
  refine ⟨by rfl, ?_⟩
  exact (public_encrypted_consistency
      [⟨3, 5, 5, 20, true⟩, ⟨4, 9, 9, 21, true⟩]
      (exec initState [Op.create 7 "Rocket" 5 1000 10])
      (exec initState [Op.create 7 "Rocket" 5 1000 10,
        Op.contrib 3 5 5 20 true, Op.contrib 4 9 9 21 true])
      (by rfl) (by decide) (by rfl)).1

/-- Updating one entry of a map at a key of a duplicate-free list changes
the list sum by swapping that entry's contribution. -/
theorem map_sum_update (c v : Nat) :
    ∀ (L : List Nat), L.Nodup → c ∈ L → ∀ f : Nat → Nat,
      ((L.map fun a => if a = c then v else f a).sum) + f c =
        (L.map f).sum + v := by
  intro L
  induction L with
  | nil => intro _ hc; cases hc
  | cons b L ih =>
    intro hnd hc f
    have hnotmem : b ∉ L := (List.nodup_cons.mp hnd).1
    have hnd2 : L.Nodup := (List.nodup_cons.mp hnd).2
    simp only [List.map_cons, List.sum_cons]
    rcases List.mem_cons.mp hc with rfl | hb
    · have hmap : (L.map fun a => if a = c then v else f a) = L.map f := by
        apply List.map_congr_left
        intro a ha
        have hane : a ≠ c := fun e => hnotmem (e ▸ ha)
        simp [hane]
      rw [if_pos rfl, hmap]
      omega
    · have hbc : b ≠ c := fun e => hnotmem (e ▸ hb)
      rw [if_neg hbc]
      have hih := ih hnd2 hb f
      omega

/-- An accepted `contribute` preserves the encrypted-ledger invariant. -/
theorem ledgerInv_contribute (s : State) {c v a now : Nat} {p : Bool}
    {s' : State} (hc : contribute s c v a now p = (none, s'))
    (h : LedgerInv s) : LedgerInv s' := by
  obtain ⟨L, hnd, hout, hr, hp⟩ := h
  obtain ⟨-, -, -, -, -, rfl⟩ := contribute_ok_elim s hc
  by_cases hcL : c ∈ L
  · refine ⟨L, hnd, ?_, ?_, ?_⟩
    · intro x hx
      have hxc : x ≠ c := fun e => hx (e ▸ hcL)
      simpa [hxc] using hout x hx
    · have hupd := map_sum_update c
        (FHE.add (s.encryptedContributions c) (FHE.fromExternal a))
        L hnd hcL s.encryptedContributions
      simp only [FHE.add] at hupd ⊢
      show (s.encryptedTotalRaised + FHE.fromExternal a) % TWO128 = _
      rw [hr, Nat.mod_add_mod]
      have h1 : ((L.map fun x => if x = c
            then (s.encryptedContributions c + FHE.fromExternal a) % TWO128
            else s.encryptedContributions x).sum
          + s.encryptedContributions c) % TWO128 =
          ((L.map s.encryptedContributions).sum
            + FHE.fromExternal a + s.encryptedContributions c) % TWO128 := by
        rw [hupd, Nat.add_mod_mod]
        ring_nf
      exact (Nat.ModEq.add_right_cancel' _ h1).symm
    · have hupd := map_sum_update c
        (FHE.add (s.encryptedPoints c) (FHE.div (FHE.fromExternal a) POINTS_DIVISOR))
        L hnd hcL s.encryptedPoints
      simp only [FHE.add] at hupd ⊢
      show (s.encryptedTotalPoints + FHE.div (FHE.fromExternal a) POINTS_DIVISOR) % TWO128 = _
      rw [hp, Nat.mod_add_mod]
      have h1 : ((L.map fun x => if x = c
            then (s.encryptedPoints c + FHE.div (FHE.fromExternal a) POINTS_DIVISOR) % TWO128
            else s.encryptedPoints x).sum
          + s.encryptedPoints c) % TWO128 =
          ((L.map s.encryptedPoints).sum
            + FHE.div (FHE.fromExternal a) POINTS_DIVISOR + s.encryptedPoints c) % TWO128 := by
        rw [hupd, Nat.add_mod_mod]
        ring_nf
      exact (Nat.ModEq.add_right_cancel' _ h1).symm
  · have hc0 := hout c hcL
    refine ⟨c :: L, List.nodup_cons.mpr ⟨hcL, hnd⟩, ?_, ?_, ?_⟩
    · intro x hx
      have hxc : x ≠ c := fun e => hx (e ▸ List.mem_cons_self c L)
      have hxL : x ∉ L := fun e => hx (List.mem_cons_of_mem c e)
      simpa [hxc] using hout x hxL
    · have hmap : (L.map fun x => if x = c
          then FHE.add (s.encryptedContributions c) (FHE.fromExternal a)
          else s.encryptedContributions x) = L.map s.encryptedContributions := by
        apply List.map_congr_left
        intro x hx
        have hxc : x ≠ c := fun e => hcL (e ▸ hx)
        simp [hxc]
      show FHE.add s.encryptedTotalRaised (FHE.fromExternal a) = _
      simp only [List.map_cons, List.sum_cons]
      rw [hmap]
      simp only [if_true]
      rw [hc0.1]
      simp only [FHE.add, Nat.zero_add, hr]
      rw [Nat.mod_add_mod, Nat.mod_add_mod, Nat.add_comm]
    · have hmap : (L.map fun x => if x = c
          then FHE.add (s.encryptedPoints c)
            (FHE.div (FHE.fromExternal a) POINTS_DIVISOR)
          else s.encryptedPoints x) = L.map s.encryptedPoints := by
        apply List.map_congr_left
        intro x hx
        have hxc : x ≠ c := fun e => hcL (e ▸ hx)
        simp [hxc]
      show FHE.add s.encryptedTotalPoints
        (FHE.div (FHE.fromExternal a) POINTS_DIVISOR) = _
      simp only [List.map_cons, List.sum_cons]
      rw [hmap]
      simp only [if_true]
      rw [hc0.2]
      simp only [FHE.add, Nat.zero_add, hp]
      rw [Nat.mod_add_mod, Nat.mod_add_mod, Nat.add_comm]

/-- A reverted `contribute` leaves the state unchanged. -/
theorem contribute_err_elim (s : State) {c v a now : Nat} {p : Bool}
    {e : Err} {t : State} (h : contribute s c v a now p = (some e, t)) :
    t = s := by
  unfold contribute at h
  split_ifs at h <;> simp_all

/-- Every single call preserves the encrypted-ledger invariant. -/
theorem step_ledgerInv (s : State) (op : Op) (h : LedgerInv s) :
    LedgerInv (step s op) := by
  cases op with
  | create c n t e now =>
    obtain ⟨L, hnd, hout, hr, hp⟩ := h
    simp only [step, createCampaign]
    split_ifs <;> exact ⟨L, hnd, hout, hr, hp⟩
  | contrib c v a now p =>
    rcases hc : contribute s c v a now p with ⟨e, t⟩
    have hstep : step s (Op.contrib c v a now p) = t := by
      simp [step, hc]
    cases e with
    | some e => rw [hstep, contribute_err_elim s hc]; exact h
    | none => rw [hstep]; exact ledgerInv_contribute s hc h
  | finish c ok now =>
    obtain ⟨L, hnd, hout, hr, hp⟩ := h
    simp only [step, endCampaign]
    split_ifs <;> exact ⟨L, hnd, hout, hr, hp⟩

/-- Every call sequence preserves the encrypted-ledger invariant. -/
theorem exec_ledgerInv (ops : List Op) :
    ∀ s : State, LedgerInv s → LedgerInv (exec s ops) := by
  induction ops with
  | nil => intro s h; exact h
  | cons op ops ih => intro s h; exact ih (step s op) (step_ledgerInv s op h)

/-- The encrypted-ledger invariant holds in every reachable state. -/
theorem reachable_ledgerInv (s : State) (h : Reachable s) : LedgerInv s := by
  obtain ⟨ops, rfl⟩ := h
  exact exec_ledgerInv ops initState ⟨[], List.nodup_nil, fun a _ => ⟨rfl, rfl⟩, rfl, rfl⟩

/-- C7 counterexample to "never decreased": euint128 addition wraps modulo
`2 ^ 128`, so a contributor at `2 ^ 128 - 1` who adds `2` sees their entry
drop to `1`. -/
theorem entry_decrease_on_wrap :
    (exec initState [Op.create 7 "Rocket" 5 1000 10,
        Op.contrib 3 1 (2 ^ 128 - 1) 20 true]).encryptedContributions 3 =
      2 ^ 128 - 1 ∧
    (exec initState [Op.create 7 "Rocket" 5 1000 10,
        Op.contrib 3 1 (2 ^ 128 - 1) 20 true,
        Op.contrib 3 1 2 21 true]).encryptedContributions 3 = 1 ∧
    (1 : Nat) < 2 ^ 128 - 1 := by
  refine ⟨by decide, by decide, by decide⟩

/-- C7 (amended): in every reachable state, `encryptedTotalRaised` is the
homomorphic (mod `2 ^ 128`) sum of all `encryptedContribution` entries and
`encryptedTotalPoints` the homomorphic sum of all `encryptedPoints`
entries, with entries encrypted zero before a first contribution; entries
are never deleted — a call leaves an entry unchanged or homomorphically
adds to it — and an entry never decreases while its accumulated value
stays below `2 ^ 128` (additions wrap modulo `2 ^ 128`). -/
theorem encrypted_ledger_invariant (s : State) (h : Reachable s) :
    LedgerInv s ∧
    (∀ (op : Op) (x : Nat),
      ((step s op).encryptedContributions x = s.encryptedContributions x ∧
        (step s op).encryptedPoints x = s.encryptedPoints x) ∨
      (∃ amt : Nat,
        (step s op).encryptedContributions x =
          FHE.add (s.encryptedContributions x) amt ∧
        (step s op).encryptedPoints x =
          FHE.add (s.encryptedPoints x) (FHE.div amt POINTS_DIVISOR))) ∧
    (∀ e amt : Nat, e + amt < TWO128 → e ≤ FHE.add e amt) := by
  refine ⟨reachable_ledgerInv s h, ?_, ?_⟩
  · intro op x
    cases op with
    | create c n t e now =>
      left
      constructor <;> simp only [step, createCampaign] <;> split_ifs <;> rfl
    | contrib c v a now p =>
      rcases hc : contribute s c v a now p with ⟨e, t⟩
      have hstep : step s (Op.contrib c v a now p) = t := by
        simp [step, hc]
      cases e with
      | some e => left; rw [hstep, contribute_err_elim s hc]; exact ⟨rfl, rfl⟩
      | none =>
        obtain ⟨-, -, -, -, -, rfl⟩ := contribute_ok_elim s hc
        by_cases hx : x = c
        · right
          refine ⟨FHE.fromExternal a, ?_, ?_⟩ <;> rw [hstep] <;> simp [hx]
        · left
          constructor <;> rw [hstep] <;> simp [hx]
    | finish c ok now =>
      left
      constructor <;> simp only [step, endCampaign] <;> split_ifs <;> rfl
  · intro e amt hlt
    simp only [FHE.add, Nat.mod_eq_of_lt hlt]
    exact Nat.le_add_right e amt

/-- C7 witness: the invariant instantiated at the concrete reachable state
after one creation and one contribution. -/
theorem encrypted_ledger_invariant_witness :
    Reachable (exec initState [Op.create 7 "Rocket" 5 1000 10,
      Op.contrib 3 5 5 20 true]) ∧
    LedgerInv (exec initState [Op.create 7 "Rocket" 5 1000 10,
      Op.contrib 3 5 5 20 true]) :=
  ⟨⟨[Op.create 7 "Rocket" 5 1000 10, Op.contrib 3 5 5 20 true], rfl⟩,
    (encrypted_ledger_invariant
      (exec initState [Op.create 7 "Rocket" 5 1000 10,
        Op.contrib 3 5 5 20 true])
      ⟨[Op.create 7 "Rocket" 5 1000 10, Op.contrib 3 5 5 20 true], rfl⟩).1⟩

/-- Capability isolation of one call's grants: a grant on a
per-contributor slot issued by `contribute` names only the contract itself
or that same contributor. -/
theorem contributeGrants_isolation (c f x : Nat) (q : Principal) :
    ((Slot.contribOf x, q) ∈ contributeGrants c f →
      q = Principal.contract ∨ q = Principal.acct x) ∧
    ((Slot.pointsOf x, q) ∈ contributeGrants c f →
      q = Principal.contract ∨ q = Principal.acct x) := by
  unfold contributeGrants
  split_ifs <;> constructor <;> intro hm <;>
    rcases q with - | y <;> simp_all

/-- Every single call preserves the access-control invariant. -/
theorem step_aclOk (s : State) (op : Op) (h : AclOk s) : AclOk (step s op) := by
  cases op with
  | create c n t e now =>
    have hacl : (step s (Op.create c n t e now)).acl = s.acl := by
      simp only [step, createCampaign]; split_ifs <;> rfl
    rw [AclOk, hacl]; exact h
  | contrib c v a now p =>
    rcases hc : contribute s c v a now p with ⟨e, t⟩
    have hstep : step s (Op.contrib c v a now p) = t := by
      simp [step, hc]
    cases e with
    | some e => rw [hstep, contribute_err_elim s hc]; exact h
    | none =>
      obtain ⟨-, -, -, -, -, rfl⟩ := contribute_ok_elim s hc
      rw [hstep]
      intro x q
      constructor <;> intro hm <;>
        rcases List.mem_append.mp hm with hm2 | hm2
      · exact (h x q).1 hm2
      · exact (contributeGrants_isolation c s.campaign.fundraiser x q).1 hm2
      · exact (h x q).2 hm2
      · exact (contributeGrants_isolation c s.campaign.fundraiser x q).2 hm2
  | finish c ok now =>
    have hacl : (step s (Op.finish c ok now)).acl = s.acl := by
      simp only [step, endCampaign]; split_ifs <;> rfl
    rw [AclOk, hacl]; exact h

/-- Every call sequence preserves the access-control invariant. -/
theorem exec_aclOk (ops : List Op) :
    ∀ s : State, AclOk s → AclOk (exec s ops) := by
  induction ops with
  | nil => intro s h; exact h
  | cons op ops ih => intro s h; exact ih (step s op) (step_aclOk s op h)

/-- The access-control invariant holds in every reachable state. -/
theorem reachable_aclOk (s : State) (h : Reachable s) : AclOk s := by
  obtain ⟨ops, rfl⟩ := h
  exact exec_aclOk ops initState (fun x q => by constructor <;> intro hm <;> cases hm)

/-- C8: an accepted `contribute` issues exactly the eight grants — the
contract over all four mutated values, the contributor over their own two
entries, the fundraiser over the two totals; in every reachable state no
principal other than the contract holds a grant over another principal's
per-contributor entry; and every call only appends grants, never revoking
any. -/
theorem permission_grants_spec (s : State) (h : Reachable s) :
    (∀ (c v a now : Nat) (p : Bool) (s' : State),
      contribute s c v a now p = (none, s') →
      s.campaign.fundraiser ≠ 0 →
      s'.acl = s.acl ++
        [ (Slot.contribOf c, Principal.contract),
          (Slot.contribOf c, Principal.acct c),
          (Slot.pointsOf c, Principal.contract),
          (Slot.pointsOf c, Principal.acct c),
          (Slot.totalRaisedSlot, Principal.contract),
          (Slot.totalPointsSlot, Principal.contract),
          (Slot.totalRaisedSlot, Principal.acct s.campaign.fundraiser),
          (Slot.totalPointsSlot, Principal.acct s.campaign.fundraiser) ]) ∧
    AclOk s ∧
    (∀ op : Op, ∃ g : List (Slot × Principal),
      (step s op).acl = s.acl ++ g) := by
  refine ⟨?_, reachable_aclOk s h, ?_⟩
  · intro c v a now p s' hc hf
    obtain ⟨-, -, -, -, -, rfl⟩ := contribute_ok_elim s hc
    show s.acl ++ contributeGrants c s.campaign.fundraiser = _
    rw [contributeGrants, if_pos hf]
    rfl
  · intro op
    cases op with
    | create c n t e now =>
      refine ⟨[], ?_⟩
      simp only [step, createCampaign]
      split_ifs <;> simp
    | contrib c v a now p =>
      rcases hc : contribute s c v a now p with ⟨e, t⟩
      have hstep : step s (Op.contrib c v a now p) = t := by
        simp [step, hc]
      cases e with
      | some e =>
        refine ⟨[], ?_⟩
        rw [hstep, contribute_err_elim s hc]
        simp
      | none =>
        obtain ⟨-, -, -, -, -, rfl⟩ := contribute_ok_elim s hc
        exact ⟨contributeGrants c s.campaign.fundraiser, by rw [hstep]⟩
    | finish c ok now =>
      refine ⟨[], ?_⟩
      simp only [step, endCampaign]
      split_ifs <;> simp

/-- C8 witness: the grant list after one concrete accepted contribution is
exactly the eight expected entries. -/
theorem permission_grants_spec_witness :
    Reachable (exec initState [Op.create 7 "Rocket" 5 1000 10]) ∧
    contribute (exec initState [Op.create 7 "Rocket" 5 1000 10])
        3 5 5 20 true =
      (none, exec initState [Op.create 7 "Rocket" 5 1000 10,
        Op.contrib 3 5 5 20 true]) ∧
    (exec initState [Op.create 7 "Rocket" 5 1000 10]).campaign.fundraiser ≠ 0 ∧
    (exec initState [Op.create 7 "Rocket" 5 1000 10,
        Op.contrib 3 5 5 20 true]).acl =
      (exec initState [Op.create 7 "Rocket" 5 1000 10]).acl ++
        [ (Slot.contribOf 3, Principal.contract),
          (Slot.contribOf 3, Principal.acct 3),
          (Slot.pointsOf 3, Principal.contract),
          (Slot.pointsOf 3, Principal.acct 3),
          (Slot.totalRaisedSlot, Principal.contract),
          (Slot.totalPointsSlot, Principal.contract),
          (Slot.totalRaisedSlot, Principal.acct
            (exec initState [Op.create 7 "Rocket" 5 1000 10]).campaign.fundraiser),
          (Slot.totalPointsSlot, Principal.acct
            (exec initState [Op.create 7 "Rocket" 5 1000 10]).campaign.fundraiser) ] := by
  refine ⟨⟨[Op.create 7 "Rocket" 5 1000 10], rfl⟩, by rfl, by decide, ?_⟩
  exact (permission_grants_spec (exec initState [Op.create 7 "Rocket" 5 1000 10])
      ⟨[Op.create 7 "Rocket" 5 1000 10], rfl⟩).1
    3 5 5 20 true _ (by rfl) (by decide)
